import Mathlib

/-
Shallow embedding of the DETR loss module and position encodings:
  src/models/DETR/model/criterion.py        (SetCriterion)
  src/models/DETR/model/position_encoding.py (PositionEmbeddingSine,
      PositionEmbeddingLearned, build_position_encoding)

Torch float tensors are modelled with exact rational arithmetic (ℚ).
Tensors appearing as data (boxes, logits, labels) are nested lists; dense
tensors that are only read pointwise (the scattered label grid, the
positional feature maps) are modelled as functions from indices, together
with explicit shape fields.  External collaborators (the Hungarian matcher,
the geometry utilities from utils.utils, torch's log-softmax kernel, and
torch's transcendental kernels sin/cos/pow) are abstract function
parameters: every theorem below is parametric in them.
-/

namespace DETR

/-- A 4-component box, either (cx, cy, w, h) or corner form (x0, y0, x1, y1). -/
structure Box where
  c1 : ℚ
  c2 : ℚ
  c3 : ℚ
  c4 : ℚ
deriving DecidableEq

/-- The all-zero box, used as the out-of-range default of list indexing
(torch raises instead; theorems carry in-range hypotheses). -/
def box0 : Box := ⟨0, 0, 0, 0⟩

/-- One image's ground truth: `labels` (class indices) and `boxes`,
equal-length lists (the dict with keys "labels" and "boxes"). -/
structure Target where
  labels : List ℕ
  boxes : List Box
deriving DecidableEq

/-- One layer's predictions: `pred_logits` is [B][Q][num_classes+1],
`pred_boxes` is [B][Q]. -/
structure Outputs where
  pred_logits : List (List (List ℚ))
  pred_boxes : List (List Box)
deriving DecidableEq

/-- The matcher's result: per image, a pair (matched query indices,
matched target indices). -/
abbrev Indices := List (List ℕ × List ℕ)

/-- Embeds `torch.full_like(src, i)` for a 1-d integer tensor `src`. -/
def full_like (l : List ℕ) (i : ℕ) : List ℕ :=
  l.map fun _ => i

/-- SetCriterion._get_src_permutation_idx:
`batch_idx = torch.cat([torch.full_like(src, i) for i, (src, _) in enumerate(indices)])`,
`src_idx = torch.cat([src for (src, _) in indices])`. -/
def get_src_permutation_idx (indices : Indices) : List ℕ × List ℕ :=
  ((indices.enum.map fun p => full_like p.2.1 p.1).flatten,
   (indices.map fun p => p.1).flatten)

/-- Follows the spec's words (claim C5): the batch-index sequence repeats
each image's index once per matched pair of that image, images concatenated
in batch order. -/
def batch_idx_spec (indices : Indices) : List ℕ :=
  (indices.enum.map fun p => List.replicate p.2.1.length p.1).flatten

/-- Follows the spec's words (claim C5): the slot-index sequence is the
concatenation, in batch order, of the per-image matched query indices. -/
def slot_idx_spec (indices : Indices) : List ℕ :=
  (indices.map fun p => p.1).flatten

theorem full_like_eq_replicate (l : List ℕ) (i : ℕ) :
    full_like l i = List.replicate l.length i :=
  List.map_const' l i

/-- Claim C5: `_get_src_permutation_idx` returns two parallel flat sequences
of equal length: the batch-index sequence repeats each image's index once per
matched pair of that image, the slot-index sequence is the concatenation of
the per-image matched query indices, per-image order and batch order are
preserved, and the common length is the total number of matched pairs. -/
theorem claim_C5 (indices : Indices) :
    get_src_permutation_idx indices = (batch_idx_spec indices, slot_idx_spec indices) ∧
    (get_src_permutation_idx indices).1.length = (get_src_permutation_idx indices).2.length ∧
    (get_src_permutation_idx indices).1.length =
      (indices.map fun p => p.1.length).sum := by
  have hfl : (indices.enum.map fun p => full_like p.2.1 p.1) =
      indices.enum.map fun p => List.replicate p.2.1.length p.1 := by
    apply List.map_congr_left
    intro p _
    exact full_like_eq_replicate p.2.1 p.1
  have henum : (indices.enum.map fun p => p.2.1.length) =
      indices.map fun x => x.1.length := by
    conv_rhs => rw [← List.enum_map_snd indices, List.map_map]
    simp only [Function.comp_def]
  refine ⟨?_, ?_, ?_⟩
  · unfold get_src_permutation_idx batch_idx_spec slot_idx_spec
    rw [hfl]
  · unfold get_src_permutation_idx
    rw [hfl]
    simp only [List.length_flatten, List.map_map, Function.comp_def,
      List.length_replicate]
    rw [henum]
  · unfold get_src_permutation_idx
    rw [hfl]
    simp only [List.length_flatten, List.map_map, Function.comp_def,
      List.length_replicate]
    rw [henum]

/-- SetCriterion.forward, step 2:
`num_boxes = sum(len(t["labels"]) for t in targets)` — note: no clamp. -/
def num_boxes (targets : List Target) : ℕ :=
  (targets.map fun t => t.labels.length).sum

/-- Claim C1 (refuting the claimed clamp): for a batch of two images with no
targets at all, the code's `num_boxes` is 0, not at least 1, and the rational
normalizer handed to the box losses (the float tensor of line 120) is 0, so
`loss_bbox` and `loss_giou` divide by zero at this input. -/
theorem claim_C1_code_bug :
    num_boxes [⟨[], []⟩, ⟨[], []⟩] = 0 ∧
    ¬ 1 ≤ num_boxes [⟨[], []⟩, ⟨[], []⟩] ∧
    ((num_boxes [⟨[], []⟩, ⟨[], []⟩] : ℕ) : ℚ) = 0 := by
  refine ⟨rfl, by decide, ?_⟩
  norm_num [num_boxes]

/-! ## Position encodings (src/models/DETR/model/position_encoding.py) -/

/-- Abstract interface for torch's transcendental kernels: `sinF`/`cosF`
model `Tensor.sin`/`Tensor.cos`, `rpow` models float `**`.  The development
is parametric in them, since their values are irrational. -/
structure RealFns where
  sinF : ℚ → ℚ
  cosF : ℚ → ℚ
  rpow : ℚ → ℚ → ℚ

/-- The IEEE-754 double value of Python's `math.pi`
(3.141592653589793115997963468544185161590576171875). -/
def mathPi : ℚ := 884279719003555 / 281474976710656

/-- The fields stored by `PositionEmbeddingSine.__init__`. -/
structure PositionEmbeddingSine where
  num_pos_feats : ℕ
  temperature : ℕ
  normalize : Bool
  scale : ℚ
deriving DecidableEq

/-- Embeds `PositionEmbeddingSine.__init__`: if `scale is None`, `scale = 2 * math.pi`. -/
def PositionEmbeddingSine.init (num_pos_feats : ℕ) (temperature : ℕ)
    (normalize : Bool) (scale : Option ℚ) : PositionEmbeddingSine :=
  { num_pos_feats := num_pos_feats
    temperature := temperature
    normalize := normalize
    scale := match scale with
      | none => 2 * mathPi
      | some s => s }

/-- A boolean mask tensor of shape [B, H, W]; `isPad b i j = true` means the
pixel is padding. -/
structure Mask where
  B : ℕ
  H : ℕ
  W : ℕ
  isPad : ℕ → ℕ → ℕ → Bool

/-- A feature-map tensor of shape [B, C, H, W], read pointwise. -/
structure Pos4 where
  B : ℕ
  C : ℕ
  H : ℕ
  W : ℕ
  val : ℕ → ℕ → ℕ → ℕ → ℚ

/-- Embeds `not_mask = ~mask` cast to float (1 on valid pixels, 0 on padding). -/
def not_mask (m : Mask) (b i j : ℕ) : ℚ :=
  if m.isPad b i j then 0 else 1

/-- Embeds `y_embed = not_mask.cumsum(1)`: running count of valid pixels down each
column, inclusive. -/
def y_embed_raw (m : Mask) (b i j : ℕ) : ℚ :=
  ∑ k ∈ Finset.range (i + 1), not_mask m b k j

/-- Embeds `x_embed = not_mask.cumsum(2)`: running count of valid pixels along each
row, inclusive. -/
def x_embed_raw (m : Mask) (b i j : ℕ) : ℚ :=
  ∑ k ∈ Finset.range (j + 1), not_mask m b i k

/-- The `eps = 1e-6` of `PositionEmbeddingSine.forward` (exact, since 1e-6
is only used after conversion to a Python float of this value times a power
of two; we take the literal rational). -/
def sineEps : ℚ := 1 / 1000000

/-- Embeds `y_embed = y_embed / (y_embed[:, -1:, :] + eps) * self.scale` when
`self.normalize`, else the raw cumulative sum. -/
def y_embed (P : PositionEmbeddingSine) (m : Mask) (b i j : ℕ) : ℚ :=
  if P.normalize then
    y_embed_raw m b i j / (y_embed_raw m b (m.H - 1) j + sineEps) * P.scale
  else
    y_embed_raw m b i j

/-- Embeds `x_embed = x_embed / (x_embed[:, :, -1:] + eps) * self.scale` when
`self.normalize`, else the raw cumulative sum. -/
def x_embed (P : PositionEmbeddingSine) (m : Mask) (b i j : ℕ) : ℚ :=
  if P.normalize then
    x_embed_raw m b i j / (x_embed_raw m b i (m.W - 1) + sineEps) * P.scale
  else
    x_embed_raw m b i j

/-- Embeds `dim_t = temperature ** (2 * (arange(num_pos_feats) // 2) / num_pos_feats)`. -/
def dim_t (R : RealFns) (P : PositionEmbeddingSine) (c : ℕ) : ℚ :=
  R.rpow (P.temperature : ℚ) (((2 * (c / 2) : ℕ) : ℚ) / (P.num_pos_feats : ℚ))

/-- Embeds `torch.stack((v[0::2].sin(), v[1::2].cos()), dim=4).flatten(3)` read at
channel `c`: flattening sends pair index `c / 2` and component `c % 2` to
channel `c`, so an even channel is the sine of source channel `2*(c/2)` and
an odd channel is the cosine of source channel `2*(c/2)+1`. -/
def sin_cos_interleave (R : RealFns) (f : ℕ → ℚ) (c : ℕ) : ℚ :=
  if c % 2 = 0 then R.sinF (f (2 * (c / 2))) else R.cosF (f (2 * (c / 2) + 1))

/-- Embeds `PositionEmbeddingSine.forward`: `pos = torch.cat((pos_y, pos_x),
dim=3).permute(0, 3, 1, 2)`, output shape [B, 2*num_pos_feats, H, W]. -/
def PositionEmbeddingSine.forward (R : RealFns) (P : PositionEmbeddingSine)
    (m : Mask) : Pos4 :=
  { B := m.B
    C := 2 * P.num_pos_feats
    H := m.H
    W := m.W
    val := fun b c h w =>
      if c < P.num_pos_feats then
        sin_cos_interleave R (fun k => y_embed P m b h w / dim_t R P k) c
      else
        sin_cos_interleave R (fun k => x_embed P m b h w / dim_t R P k)
          (c - P.num_pos_feats) }

/-- The fields of `PositionEmbeddingLearned`: two lookup tables
(`row_embed i c`, `col_embed j c`); the tables' contents come from an
external random initialization, so they are arbitrary here. -/
structure PositionEmbeddingLearned where
  num_pos_feats : ℕ
  row_embed : ℕ → ℕ → ℚ
  col_embed : ℕ → ℕ → ℚ

/-- The [H, W, 2*num_pos_feats] map
`torch.cat([x_emb.unsqueeze(0).repeat(h, 1, 1), y_emb.unsqueeze(1).repeat(1, w, 1)], dim=-1)`
read at (i, j, c): the first `num_pos_feats` channels are the column
embedding of `j`, the rest the row embedding of `i`. -/
def learned_pos_hwc (L : PositionEmbeddingLearned) (i j c : ℕ) : ℚ :=
  if c < L.num_pos_feats then L.col_embed j c
  else L.row_embed i (c - L.num_pos_feats)

/-- Embeds `PositionEmbeddingLearned.forward`: the [H, W, 2C] map is rearranged by
`.permute(2, 0, 1).unsqueeze(0).repeat(mask.shape[0], 1, 1, 1)` into shape
[B, 2C, H, W]; the batch index selects identical copies. -/
def PositionEmbeddingLearned.forward (L : PositionEmbeddingLearned)
    (m : Mask) : Pos4 :=
  { B := m.B
    C := 2 * L.num_pos_feats
    H := m.H
    W := m.W
    val := fun _b c i j => learned_pos_hwc L i j c }

/-- The configuration surface read (or deliberately not read) by
`build_position_encoding`: only `position_embedding` and `hidden_dim` are
consulted; `temperature`, `normalize` and `scale` are present on the args
object but never read. -/
structure Args where
  position_embedding : String
  hidden_dim : ℕ
  temperature : ℕ
  normalize : Bool
  scale : Option ℚ

/-- The module constructed by `build_position_encoding`.  For the learned
variant only the configuration is recorded (its tables are filled by an
external random initializer). -/
inductive PosEncModule where
  | sine (P : PositionEmbeddingSine)
  | learned (num_pos_feats : ℕ)
deriving DecidableEq

/-- Embeds `build_position_encoding(args)`: `N_steps = args.hidden_dim // 2`;
dispatch on `args.position_embedding`, raising `ValueError` otherwise. -/
def build_position_encoding (args : Args) : Except String PosEncModule :=
  let N_steps := args.hidden_dim / 2
  if args.position_embedding = "v2" ∨ args.position_embedding = "sine" then
    Except.ok (PosEncModule.sine (PositionEmbeddingSine.init N_steps 10000 true none))
  else if args.position_embedding = "v3" ∨ args.position_embedding = "learned" then
    Except.ok (PosEncModule.learned N_steps)
  else
    Except.error ("unsupported position embedding type: " ++ args.position_embedding)

/-- Claim C8: `build_position_encoding` yields the sine embedding for option
"sine" or "v2" and the learned embedding for "learned" or "v3", both with
`num_pos_feats = hidden_dim / 2`, and fails with a configuration error on
any other option value. -/
theorem claim_C8 (args : Args) :
    ((args.position_embedding = "sine" ∨ args.position_embedding = "v2") →
      build_position_encoding args =
        Except.ok (PosEncModule.sine
          ⟨args.hidden_dim / 2, 10000, true, 2 * mathPi⟩)) ∧
    ((args.position_embedding = "learned" ∨ args.position_embedding = "v3") →
      build_position_encoding args =
        Except.ok (PosEncModule.learned (args.hidden_dim / 2))) ∧
    (args.position_embedding ≠ "sine" → args.position_embedding ≠ "v2" →
      args.position_embedding ≠ "learned" → args.position_embedding ≠ "v3" →
      ∃ msg, build_position_encoding args = Except.error msg) := by
  unfold build_position_encoding
  refine ⟨?_, ?_, ?_⟩
  · intro h
    rw [if_pos h.symm]
    rfl
  · intro h
    rcases h with h | h
    · by_cases h2 : args.position_embedding = "v2" ∨ args.position_embedding = "sine"
      · rcases h2 with h2 | h2 <;> rw [h2] at h <;> exact absurd h (by decide)
      · rw [if_neg h2, if_pos (Or.inr h)]
    · by_cases h2 : args.position_embedding = "v2" ∨ args.position_embedding = "sine"
      · rcases h2 with h2 | h2 <;> rw [h2] at h <;> exact absurd h (by decide)
      · rw [if_neg h2, if_pos (Or.inl h)]
  · intro h1 h2 h3 h4
    rw [if_neg (by tauto), if_neg (by tauto)]
    exact ⟨_, rfl⟩

/-- Claim C8 witness at the concrete options "sine" and "bilinear". -/
theorem claim_C8_witness :
    build_position_encoding ⟨"sine", 256, 20000, false, some 1⟩ =
      Except.ok (PosEncModule.sine ⟨128, 10000, true, 2 * mathPi⟩) ∧
    (∃ msg, build_position_encoding ⟨"bilinear", 256, 10000, true, none⟩ =
      Except.error msg) :=
  ⟨(claim_C8 ⟨"sine", 256, 20000, false, some 1⟩).1 (Or.inl rfl),
   (claim_C8 ⟨"bilinear", 256, 10000, true, none⟩).2.2
     (by decide) (by decide) (by decide) (by decide)⟩

/-- Claim C10: with a sine-type option, `build_position_encoding` always
constructs `PositionEmbeddingSine` with `normalize = True`, the default
temperature 10000 and the default scale `2 * math.pi`; none of the
temperature / normalize / scale configuration fields are read, so the result
is determined by `position_embedding` and `hidden_dim` alone. -/
theorem claim_C10 (a1 a2 : Args)
    (hpe : a1.position_embedding = a2.position_embedding)
    (hhd : a1.hidden_dim = a2.hidden_dim) :
    build_position_encoding a1 = build_position_encoding a2 ∧
    ((a1.position_embedding = "sine" ∨ a1.position_embedding = "v2") →
      build_position_encoding a1 =
        Except.ok (PosEncModule.sine
          { num_pos_feats := a1.hidden_dim / 2
            temperature := 10000
            normalize := true
            scale := 2 * mathPi })) := by
  constructor
  · unfold build_position_encoding
    rw [hpe, hhd]
  · exact (claim_C8 a1).1

/-- Claim C10 witness: two args objects differing in every unread field
produce the same sine module. -/
theorem claim_C10_witness :
    build_position_encoding ⟨"v2", 64, 10000, true, none⟩ =
      build_position_encoding ⟨"v2", 64, 77, false, some 3⟩ ∧
    build_position_encoding ⟨"v2", 64, 10000, true, none⟩ =
      Except.ok (PosEncModule.sine
        { num_pos_feats := 32
          temperature := 10000
          normalize := true
          scale := 2 * mathPi }) :=
  ⟨(claim_C10 ⟨"v2", 64, 10000, true, none⟩ ⟨"v2", 64, 77, false, some 3⟩ rfl rfl).1,
   (claim_C10 ⟨"v2", 64, 10000, true, none⟩ ⟨"v2", 64, 77, false, some 3⟩ rfl rfl).2
     (Or.inr rfl)⟩

/-- Claim C9: the learned embedding's output has shape
[B, 2*num_pos_feats, H, W]; its per-pixel values are the same for every
batch index and depend only on the spatial shape (H, W) of the mask, with
the column-embedding block preceding the row-embedding block along the
feature axis. -/
theorem claim_C9 (L : PositionEmbeddingLearned) (m m2 : Mask)
    (hH : m.H = m2.H) (hW : m.W = m2.W) (b b2 c i j : ℕ) :
    ((L.forward m).B = m.B ∧ (L.forward m).C = 2 * L.num_pos_feats ∧
      (L.forward m).H = m.H ∧ (L.forward m).W = m.W) ∧
    (L.forward m).val b c i j =
      (if c < L.num_pos_feats then L.col_embed j c
       else L.row_embed i (c - L.num_pos_feats)) ∧
    (L.forward m).val b c i j = (L.forward m).val b2 c i j ∧
    (L.forward m).val b c i j = (L.forward m2).val b2 c i j := by
  refine ⟨⟨rfl, rfl, rfl, rfl⟩, rfl, rfl, rfl⟩

/-- Claim C9 witness: a table evaluated on masks of equal spatial shape but
different batch size and contents. -/
theorem claim_C9_witness :
    ((PositionEmbeddingLearned.forward ⟨1, fun i c => i + c, fun j c => j * 10 + c⟩
        ⟨2, 3, 4, fun _ _ _ => false⟩).val 0 1 2 3 =
      (PositionEmbeddingLearned.forward ⟨1, fun i c => i + c, fun j c => j * 10 + c⟩
        ⟨7, 3, 4, fun _ _ _ => true⟩).val 5 1 2 3) ∧
    (PositionEmbeddingLearned.forward ⟨1, fun i c => i + c, fun j c => j * 10 + c⟩
        ⟨2, 3, 4, fun _ _ _ => false⟩).val 0 1 2 3 = 2 :=
  ⟨(claim_C9 ⟨1, fun i c => i + c, fun j c => j * 10 + c⟩
      ⟨2, 3, 4, fun _ _ _ => false⟩ ⟨7, 3, 4, fun _ _ _ => true⟩ rfl rfl 0 5 1 2 3).2.2.2,
   by norm_num [PositionEmbeddingLearned.forward, learned_pos_hwc]⟩

theorem sin_cos_interleave_eq (R : RealFns) (f : ℕ → ℚ) (c : ℕ) :
    sin_cos_interleave R f c =
      if c % 2 = 0 then R.sinF (f c) else R.cosF (f c) := by
  unfold sin_cos_interleave
  by_cases h : c % 2 = 0
  · have h2 : 2 * (c / 2) = c := by omega
    rw [if_pos h, if_pos h, h2]
  · have h2 : 2 * (c / 2) + 1 = c := by omega
    rw [if_neg h, if_neg h, h2]

/-- Claim C6: the sine encoding's output has shape exactly
[B, 2*num_pos_feats, H, W]; in each axis block, channel `c` divides the
coordinate by the wavelength `temperature ** (2 * (c / 2) / num_pos_feats)`,
applies sine at even channel indices and cosine at odd ones (interleaved
back into channel order), and the y block occupies channels below
`num_pos_feats` while the x block occupies the rest. -/
theorem claim_C6 (R : RealFns) (P : PositionEmbeddingSine) (m : Mask)
    (b c h w : ℕ) :
    ((P.forward R m).B = m.B ∧ (P.forward R m).C = 2 * P.num_pos_feats ∧
      (P.forward R m).H = m.H ∧ (P.forward R m).W = m.W) ∧
    (c < P.num_pos_feats →
      (P.forward R m).val b c h w =
        if c % 2 = 0 then
          R.sinF (y_embed P m b h w /
            R.rpow (P.temperature : ℚ)
              (((2 * (c / 2) : ℕ) : ℚ) / (P.num_pos_feats : ℚ)))
        else
          R.cosF (y_embed P m b h w /
            R.rpow (P.temperature : ℚ)
              (((2 * (c / 2) : ℕ) : ℚ) / (P.num_pos_feats : ℚ)))) ∧
    (P.num_pos_feats ≤ c → c < 2 * P.num_pos_feats →
      (P.forward R m).val b c h w =
        if (c - P.num_pos_feats) % 2 = 0 then
          R.sinF (x_embed P m b h w /
            R.rpow (P.temperature : ℚ)
              (((2 * ((c - P.num_pos_feats) / 2) : ℕ) : ℚ) / (P.num_pos_feats : ℚ)))
        else
          R.cosF (x_embed P m b h w /
            R.rpow (P.temperature : ℚ)
              (((2 * ((c - P.num_pos_feats) / 2) : ℕ) : ℚ) / (P.num_pos_feats : ℚ)))) := by
  refine ⟨⟨rfl, rfl, rfl, rfl⟩, ?_, ?_⟩
  · intro hc
    show (if c < P.num_pos_feats then _ else _) = _
    rw [if_pos hc, sin_cos_interleave_eq]
    rfl
  · intro hc _
    show (if c < P.num_pos_feats then _ else _) = _
    rw [if_neg (by omega), sin_cos_interleave_eq]
    rfl

/-- Claim C6 witness: a 2-channel-per-axis sine encoding on a 1 x 2 x 2 mask,
with the abstract kernels instantiated by concrete rational functions. -/
theorem claim_C6_witness :
    ((PositionEmbeddingSine.forward ⟨fun q => q + 1, fun q => q + 2, fun a e => a + e⟩
        ⟨2, 10000, false, 1⟩ ⟨1, 2, 2, fun _ _ _ => false⟩).C = 4) ∧
    ((PositionEmbeddingSine.forward ⟨fun q => q + 1, fun q => q + 2, fun a e => a + e⟩
        ⟨2, 10000, false, 1⟩ ⟨1, 2, 2, fun _ _ _ => false⟩).val 0 1 1 0 =
      (fun q => q + 2)
        (y_embed ⟨2, 10000, false, 1⟩ ⟨1, 2, 2, fun _ _ _ => false⟩ 0 1 0 /
          (fun a e => a + e) ((10000 : ℕ) : ℚ) (((2 * (1 / 2 : ℕ) : ℕ) : ℚ) / ((2 : ℕ) : ℚ)))) :=
  ⟨(claim_C6 ⟨fun q => q + 1, fun q => q + 2, fun a e => a + e⟩
      ⟨2, 10000, false, 1⟩ ⟨1, 2, 2, fun _ _ _ => false⟩ 0 1 1 0).1.2.1,
   by
    have h := (claim_C6 ⟨fun q => q + 1, fun q => q + 2, fun a e => a + e⟩
      ⟨2, 10000, false, 1⟩ ⟨1, 2, 2, fun _ _ _ => false⟩ 0 1 1 0).2.1 (by norm_num)
    simpa using h⟩

theorem not_mask_nonneg (m : Mask) (b i j : ℕ) : 0 ≤ not_mask m b i j := by
  unfold not_mask
  split <;> norm_num

theorem y_embed_raw_nonneg (m : Mask) (b i j : ℕ) : 0 ≤ y_embed_raw m b i j :=
  Finset.sum_nonneg fun k _ => not_mask_nonneg m b k j

theorem x_embed_raw_nonneg (m : Mask) (b i j : ℕ) : 0 ≤ x_embed_raw m b i j :=
  Finset.sum_nonneg fun k _ => not_mask_nonneg m b i k

theorem sineEps_pos : (0 : ℚ) < sineEps := by norm_num [sineEps]

theorem y_embed_raw_unpadded (m : Mask)
    (hun : ∀ b i j, b < m.B → i < m.H → j < m.W → m.isPad b i j = false)
    (b i j : ℕ) (hb : b < m.B) (hi : i < m.H) (hj : j < m.W) :
    y_embed_raw m b i j = (i : ℚ) + 1 := by
  unfold y_embed_raw
  rw [Finset.sum_congr rfl fun k hk => by
    have hk2 : k < m.H := by
      have := Finset.mem_range.mp hk
      omega
    show not_mask m b k j = 1
    unfold not_mask
    rw [hun b k j hb hk2 hj]
    norm_num]
  simp

theorem x_embed_raw_unpadded (m : Mask)
    (hun : ∀ b i j, b < m.B → i < m.H → j < m.W → m.isPad b i j = false)
    (b i j : ℕ) (hb : b < m.B) (hi : i < m.H) (hj : j < m.W) :
    x_embed_raw m b i j = (j : ℚ) + 1 := by
  unfold x_embed_raw
  rw [Finset.sum_congr rfl fun k hk => by
    have hk2 : k < m.W := by
      have := Finset.mem_range.mp hk
      omega
    show not_mask m b i k = 1
    unfold not_mask
    rw [hun b i k hb hi hk2]
    norm_num]
  simp

/-- Claim C7: with `normalize = True`, on a fully-unpadded mask the
coordinate along each axis is rescaled by the last cumulative count plus
`eps = 1e-6` times `scale`, so the maximum (last) coordinate of a row or
column is `H / (H + eps) * scale` resp. `W / (W + eps) * scale` — equal to
the configured scale up to a defect of at most `scale * eps` — and on any
mask (including fully padded rows or columns) the denominator is strictly
positive, so no division by zero occurs. -/
theorem claim_C7 (P : PositionEmbeddingSine) (m : Mask)
    (hnorm : P.normalize = true) (hs : 0 ≤ P.scale)
    (hH : 1 ≤ m.H) (hW : 1 ≤ m.W)
    (hun : ∀ b i j, b < m.B → i < m.H → j < m.W → m.isPad b i j = false)
    (b i j : ℕ) (hb : b < m.B) (hi : i < m.H) (hj : j < m.W) :
    (y_embed P m b (m.H - 1) j = (m.H : ℚ) / ((m.H : ℚ) + sineEps) * P.scale ∧
     y_embed P m b i j ≤ y_embed P m b (m.H - 1) j ∧
     0 ≤ P.scale - y_embed P m b (m.H - 1) j ∧
     P.scale - y_embed P m b (m.H - 1) j ≤ P.scale * sineEps) ∧
    (x_embed P m b i (m.W - 1) = (m.W : ℚ) / ((m.W : ℚ) + sineEps) * P.scale ∧
     x_embed P m b i j ≤ x_embed P m b i (m.W - 1) ∧
     0 ≤ P.scale - x_embed P m b i (m.W - 1) ∧
     P.scale - x_embed P m b i (m.W - 1) ≤ P.scale * sineEps) ∧
    (∀ (m2 : Mask) (b2 i2 j2 : ℕ),
      0 < y_embed_raw m2 b2 (m2.H - 1) j2 + sineEps ∧
      0 < x_embed_raw m2 b2 i2 (m2.W - 1) + sineEps) := by
  have hε := sineEps_pos
  have hlastY : y_embed_raw m b (m.H - 1) j = (m.H : ℚ) := by
    rw [y_embed_raw_unpadded m hun b (m.H - 1) j hb (by omega) hj]
    have : ((m.H - 1 : ℕ) : ℚ) = (m.H : ℚ) - 1 := by
      have : (1 : ℕ) ≤ m.H := hH
      push_cast [Nat.cast_sub this]
      ring
    rw [this]
    ring
  have hlastX : x_embed_raw m b i (m.W - 1) = (m.W : ℚ) := by
    rw [x_embed_raw_unpadded m hun b i (m.W - 1) hb hi (by omega)]
    have : ((m.W - 1 : ℕ) : ℚ) = (m.W : ℚ) - 1 := by
      have : (1 : ℕ) ≤ m.W := hW
      push_cast [Nat.cast_sub this]
      ring
    rw [this]
    ring
  have hHpos : (1 : ℚ) ≤ (m.H : ℚ) := by exact_mod_cast hH
  have hWpos : (1 : ℚ) ≤ (m.W : ℚ) := by exact_mod_cast hW
  have hdY : (0 : ℚ) < (m.H : ℚ) + sineEps := by linarith
  have hdX : (0 : ℚ) < (m.W : ℚ) + sineEps := by linarith
  have hmaxgen : ∀ n : ℚ, 1 ≤ n → 0 ≤ P.scale - n / (n + sineEps) * P.scale ∧
      P.scale - n / (n + sineEps) * P.scale ≤ P.scale * sineEps := by
    intro n hn
    have hd : (0 : ℚ) < n + sineEps := by linarith
    have hkey : P.scale - n / (n + sineEps) * P.scale =
        P.scale * sineEps / (n + sineEps) := by
      field_simp
      ring
    constructor
    · rw [hkey]
      positivity
    · rw [hkey]
      exact div_le_self (by positivity) (by linarith)
  refine ⟨⟨?_, ?_, ?_, ?_⟩, ⟨?_, ?_, ?_, ?_⟩, ?_⟩
  · unfold y_embed
    rw [hnorm, if_pos rfl, hlastY]
  · unfold y_embed
    rw [hnorm, if_pos rfl, hlastY,
      y_embed_raw_unpadded m hun b i j hb hi hj]
    apply mul_le_mul_of_nonneg_right _ hs
    apply div_le_div_of_nonneg_right _ hdY.le
    have : (i : ℚ) + 1 ≤ (m.H : ℚ) := by exact_mod_cast hi
    linarith
  · have := (hmaxgen (m.H : ℚ) hHpos).1
    unfold y_embed
    rw [hnorm, if_pos rfl, hlastY]
    exact this
  · have := (hmaxgen (m.H : ℚ) hHpos).2
    unfold y_embed
    rw [hnorm, if_pos rfl, hlastY]
    exact this
  · unfold x_embed
    rw [hnorm, if_pos rfl, hlastX]
  · unfold x_embed
    rw [hnorm, if_pos rfl, hlastX,
      x_embed_raw_unpadded m hun b i j hb hi hj]
    apply mul_le_mul_of_nonneg_right _ hs
    apply div_le_div_of_nonneg_right _ hdX.le
    have : (j : ℚ) + 1 ≤ (m.W : ℚ) := by exact_mod_cast hj
    linarith
  · have := (hmaxgen (m.W : ℚ) hWpos).1
    unfold x_embed
    rw [hnorm, if_pos rfl, hlastX]
    exact this
  · have := (hmaxgen (m.W : ℚ) hWpos).2
    unfold x_embed
    rw [hnorm, if_pos rfl, hlastX]
    exact this
  · intro m2 b2 i2 j2
    constructor
    · have := y_embed_raw_nonneg m2 b2 (m2.H - 1) j2
      linarith
    · have := x_embed_raw_nonneg m2 b2 i2 (m2.W - 1)
      linarith

/-- Claim C7 witness: a normalized sine encoding with scale 2 on a
fully-unpadded 1 x 2 x 3 mask. -/
theorem claim_C7_witness :
    y_embed ⟨4, 10000, true, 2⟩ ⟨1, 2, 3, fun _ _ _ => false⟩ 0 (2 - 1) 2 =
      ((2 : ℕ) : ℚ) / (((2 : ℕ) : ℚ) + sineEps) * 2 ∧
    (2 : ℚ) - y_embed ⟨4, 10000, true, 2⟩ ⟨1, 2, 3, fun _ _ _ => false⟩ 0 (2 - 1) 2 ≤
      2 * sineEps :=
  ⟨(claim_C7 ⟨4, 10000, true, 2⟩ ⟨1, 2, 3, fun _ _ _ => false⟩ rfl (by norm_num)
      (by norm_num) (by norm_num) (fun _ _ _ _ _ _ => rfl) 0 1 2 (by norm_num)
      (by norm_num) (by norm_num)).1.1,
   (claim_C7 ⟨4, 10000, true, 2⟩ ⟨1, 2, 3, fun _ _ _ => false⟩ rfl (by norm_num)
      (by norm_num) (by norm_num) (fun _ _ _ _ _ _ => rfl) 0 1 2 (by norm_num)
      (by norm_num) (by norm_num)).1.2.2.2⟩

/-! ## SetCriterion losses (src/models/DETR/model/criterion.py) -/

/-- Abstract interface for the external collaborators of `SetCriterion`:
`cxcywh_to_xyxy` and `generalized_box_iou` from `utils.utils` (the latter
read at an aligned pair of the pairwise matrix, as extracted by
`torch.diag`), and `nll l c`, the negative log-softmax of the logit vector
`l` at class `c` — the per-slot term of `F.cross_entropy`. -/
structure ExternalFns where
  cxcywh_to_xyxy : Box → Box
  generalized_box_iou : Box → Box → ℚ
  nll : List ℚ → ℕ → ℚ

/-- Keys of the returned loss dictionary.  `ce`, `bbox`, `giou` model the
strings "loss_ce", "loss_bbox", "loss_giou"; `ceA i` models "loss_ce_"
followed by the decimal digits of `i` (the auxiliary-layer suffix added in
`SetCriterion.forward`), and similarly `bboxA i` and `giouA i`. -/
inductive LKey where
  | ce
  | bbox
  | giou
  | ceA (i : ℕ)
  | bboxA (i : ℕ)
  | giouA (i : ℕ)
deriving DecidableEq

/-- Embeds `F.l1_loss(src, target, reduction="none")` at one matched pair,
already summed over the 4 box coordinates. -/
def l1dist (a b : Box) : ℚ :=
  |a.c1 - b.c1| + |a.c2 - b.c2| + |a.c3 - b.c3| + |a.c4 - b.c4|

/-- Embeds `outputs["pred_boxes"][idx]` at one (batch, query) coordinate. -/
def gather_boxes (pred : List (List Box)) (b q : ℕ) : Box :=
  (pred.getD b []).getD q box0

/-- The per-image target-box gather
`torch.cat([t["boxes"][i] for t, (_, i) in zip(targets, indices)], dim=0)`. -/
def target_boxes_cat (targets : List Target) (indices : Indices) : List Box :=
  ((targets.zip indices).map fun p => p.2.2.map fun j => p.1.boxes.getD j box0).flatten

/-- The gathered matched predictions `outputs["pred_boxes"][idx]` where
`idx = self._get_src_permutation_idx(indices)`. -/
def src_boxes_gather (pred : List (List Box)) (indices : Indices) : List Box :=
  ((get_src_permutation_idx indices).1.zip (get_src_permutation_idx indices).2).map
    fun p => gather_boxes pred p.1 p.2

/-- Embeds `losses["loss_bbox"] = loss_bbox.sum() / num_boxes` of
`SetCriterion.loss_boxes`. -/
def loss_bbox_scalar (outputs : Outputs) (targets : List Target)
    (indices : Indices) (nb : ℚ) : ℚ :=
  (((src_boxes_gather outputs.pred_boxes indices).zip
      (target_boxes_cat targets indices)).map fun p => l1dist p.1 p.2).sum / nb

/-- Embeds `losses["loss_giou"] = loss_giou.sum() / num_boxes` of
`SetCriterion.loss_boxes`, where `loss_giou = 1 - torch.diag(
generalized_box_iou(cxcywh_to_xyxy(src_boxes), cxcywh_to_xyxy(target_boxes)))`. -/
def loss_giou_scalar (E : ExternalFns) (outputs : Outputs) (targets : List Target)
    (indices : Indices) (nb : ℚ) : ℚ :=
  (((src_boxes_gather outputs.pred_boxes indices).zip
      (target_boxes_cat targets indices)).map fun p =>
    1 - E.generalized_box_iou (E.cxcywh_to_xyxy p.1) (E.cxcywh_to_xyxy p.2)).sum / nb

/-- Embeds `SetCriterion.loss_boxes` (the returned dict). -/
def loss_boxes (E : ExternalFns) (outputs : Outputs) (targets : List Target)
    (indices : Indices) (nb : ℚ) : List (LKey × ℚ) :=
  [(LKey.bbox, loss_bbox_scalar outputs targets indices nb),
   (LKey.giou, loss_giou_scalar E outputs targets indices nb)]

/-- Follows the spec's words (claim C2): the matched
(predicted box, target box) pairs, per image in match order, images
concatenated in batch order. -/
def matched_pairs (pred : List (List Box)) (targets : List Target)
    (indices : Indices) : List (Box × Box) :=
  ((targets.zip indices).enum.map fun p =>
    (p.2.2.1.zip p.2.2.2).map fun sj =>
      (gather_boxes pred p.1 sj.1, p.2.1.boxes.getD sj.2 box0)).flatten

/-- Proof-side view of `matched_pairs`: one segment per image, with an
explicit starting batch index. -/
def pair_segments (pred : List (List Box)) : ℕ → List Target → Indices →
    List (List (Box × Box))
  | n, t :: ts, p :: ps =>
      ((p.1.zip p.2).map fun sj =>
        (gather_boxes pred n sj.1, t.boxes.getD sj.2 box0)) ::
        pair_segments pred (n + 1) ts ps
  | _, _, _ => []

theorem full_like_zip (l : List ℕ) (i : ℕ) :
    (full_like l i).zip l = l.map fun q => (i, q) := by
  induction l with
  | nil => rfl
  | cons a t ih =>
      show (i, a) :: (full_like t i).zip t = (i, a) :: t.map fun q => (i, q)
      rw [ih]

theorem matched_pairs_eq_segments (pred : List (List Box)) :
    ∀ (ts : List Target) (ps : Indices) (n : ℕ),
    ((List.enumFrom n (ts.zip ps)).map fun p =>
      (p.2.2.1.zip p.2.2.2).map fun sj =>
        (gather_boxes pred p.1 sj.1, p.2.1.boxes.getD sj.2 box0))
    = pair_segments pred n ts ps := by
  intro ts
  induction ts with
  | nil => intro ps n; cases ps <;> rfl
  | cons t ts ih =>
      intro ps n
      cases ps with
      | nil => rfl
      | cons p ps2 =>
          simp only [List.zip_cons_cons, List.enumFrom_cons, List.map_cons]
          rw [ih ps2 (n + 1)]
          rfl

theorem zip_gather_eq (pred : List (List Box)) :
    ∀ (ps : Indices) (ts : List Target) (n : ℕ),
    ts.length = ps.length →
    (∀ p ∈ ps, (p.1 : List ℕ).length = p.2.length) →
    ((((List.enumFrom n ps).map fun p => full_like p.2.1 p.1).flatten.zip
        ((ps.map fun p => p.1).flatten)).map
      fun p => gather_boxes pred p.1 p.2).zip
      (((ts.zip ps).map fun p => p.2.2.map fun j => p.1.boxes.getD j box0).flatten)
    = (pair_segments pred n ts ps).flatten := by
  intro ps
  induction ps with
  | nil =>
      intro ts n _ _
      cases ts <;> rfl
  | cons p ps ih =>
      intro ts n hlen hseg
      cases ts with
      | nil => simp at hlen
      | cons t ts =>
          have hlen2 : ts.length = ps.length := by simpa using hlen
          have hp : p.1.length = p.2.length := hseg p (List.mem_cons_self p ps)
          have hseg2 : ∀ x ∈ ps, (x.1 : List ℕ).length = x.2.length :=
            fun x hx => hseg x (List.mem_cons_of_mem p hx)
          show (((((full_like p.1 n :: (List.enumFrom (n + 1) ps).map fun x =>
              full_like x.2.1 x.1).flatten).zip
              ((p.1 :: ps.map fun x => x.1).flatten)).map
              fun x => gather_boxes pred x.1 x.2).zip
              (((p.2.map fun j => t.boxes.getD j box0) ::
                (ts.zip ps).map fun x => x.2.2.map fun j => x.1.boxes.getD j box0).flatten))
            = _
          rw [List.flatten_cons, List.flatten_cons, List.flatten_cons,
            List.zip_append (by rw [full_like_eq_replicate]; simp),
            List.map_append,
            List.zip_append (by simp [full_like_eq_replicate, hp]),
            full_like_zip, List.map_map, List.zip_map]
          rw [ih ts (n + 1) hlen2 hseg2]
          show _ ++ _ = _ ++ _
          congr 1

/-- The matched-pair zip computed inside `SetCriterion.loss_boxes` equals
the per-image matched pairs of the spec. -/
theorem src_target_zip_eq (pred : List (List Box)) (targets : List Target)
    (indices : Indices)
    (hlen : targets.length = indices.length)
    (hseg : ∀ p ∈ indices, (p.1 : List ℕ).length = p.2.length) :
    (src_boxes_gather pred indices).zip (target_boxes_cat targets indices)
      = matched_pairs pred targets indices := by
  unfold src_boxes_gather target_boxes_cat matched_pairs get_src_permutation_idx
  rw [List.enum_eq_enumFrom, List.enum_eq_enumFrom,
    matched_pairs_eq_segments pred targets indices 0]
  exact zip_gather_eq pred indices targets 0 hlen hseg

/-- Claim C2: `loss_boxes` computes its two terms only over the matched
query/target pairs: `loss_bbox` is the L1 distance between matched
predicted and target boxes summed over all matched pairs and all 4
coordinates, divided by `num_boxes`; `loss_giou` is the sum over matched
pairs of one minus the generalized IoU of the pair after converting both
boxes to corner form, divided by `num_boxes`. -/
theorem claim_C2 (E : ExternalFns) (outputs : Outputs) (targets : List Target)
    (indices : Indices) (nb : ℚ)
    (hlen : targets.length = indices.length)
    (hseg : ∀ p ∈ indices, (p.1 : List ℕ).length = p.2.length) :
    loss_boxes E outputs targets indices nb =
      [(LKey.bbox,
        ((matched_pairs outputs.pred_boxes targets indices).map fun p =>
          l1dist p.1 p.2).sum / nb),
       (LKey.giou,
        ((matched_pairs outputs.pred_boxes targets indices).map fun p =>
          1 - E.generalized_box_iou (E.cxcywh_to_xyxy p.1)
            (E.cxcywh_to_xyxy p.2)).sum / nb)] := by
  unfold loss_boxes loss_bbox_scalar loss_giou_scalar
  rw [src_target_zip_eq outputs.pred_boxes targets indices hlen hseg]

/-- Claim C2 witness: one image, two queries, one matched target. -/
theorem claim_C2_witness :
    (([((⟨[0], [⟨1, 1, 2, 2⟩]⟩ : Target), ([1], [0]))] : List (Target × (List ℕ × List ℕ))).length =
      ([([1], [0])] : Indices).length → True) ∧
    loss_boxes ⟨id, fun a b => a.c1 * b.c1, fun _ _ => 0⟩
        ⟨[[[1, 0]]], [[⟨0, 0, 1, 1⟩, ⟨5, 5, 2, 2⟩]]⟩
        [⟨[0], [⟨1, 1, 2, 2⟩]⟩] [([1], [0])] 1 =
      [(LKey.bbox,
        ((matched_pairs [[⟨0, 0, 1, 1⟩, ⟨5, 5, 2, 2⟩]] [⟨[0], [⟨1, 1, 2, 2⟩]⟩]
          [([1], [0])]).map fun p => l1dist p.1 p.2).sum / 1),
       (LKey.giou,
        ((matched_pairs [[⟨0, 0, 1, 1⟩, ⟨5, 5, 2, 2⟩]] [⟨[0], [⟨1, 1, 2, 2⟩]⟩]
          [([1], [0])]).map fun p =>
          1 - (fun (a b : Box) => a.c1 * b.c1) (id p.1) (id p.2)).sum / 1)] :=
  ⟨fun _ => trivial,
   claim_C2 ⟨id, fun a b => a.c1 * b.c1, fun _ _ => 0⟩
     ⟨[[[1, 0]]], [[⟨0, 0, 1, 1⟩, ⟨5, 5, 2, 2⟩]]⟩
     [⟨[0], [⟨1, 1, 2, 2⟩]⟩] [([1], [0])] 1 rfl (by decide)⟩

/-- Embeds `empty_weight = torch.ones(num_classes + 1); empty_weight[-1] = eos_coef`
(the buffer registered by `SetCriterion.__init__`). -/
def empty_weight (num_classes : ℕ) (eos_coef : ℚ) : List ℚ :=
  (List.replicate (num_classes + 1) (1 : ℚ)).set num_classes eos_coef

/-- Overwriting a dense 1-d row at the listed (slot, value) pairs, in
order (later writes win). -/
def overwrite_slots (init : ℕ → ℕ) (upd : List (ℕ × ℕ)) : ℕ → ℕ :=
  upd.foldl (fun f p => fun q => if q = p.1 then p.2 else f q) init

/-- The advanced-index assignment `target_classes[idx] = target_classes_o`
on a dense [B, Q] tensor: each listed ((batch, slot), value) triple is
written in order. -/
def scatterF (init : ℕ → ℕ → ℕ) (upd : List ((ℕ × ℕ) × ℕ)) : ℕ → ℕ → ℕ :=
  upd.foldl (fun f p => fun b q => if b = p.1.1 ∧ q = p.1.2 then p.2 else f b q) init

/-- Embeds `target_classes_o = torch.cat([t["labels"][J] for t, (_, J) in
zip(targets, indices)])`. -/
def target_classes_o (targets : List Target) (indices : Indices) : List ℕ :=
  ((targets.zip indices).map fun p => p.2.2.map fun j => p.1.labels.getD j 0).flatten

/-- The dense [B, Q] label tensor of `SetCriterion.loss_labels`:
`torch.full(..., num_classes)` followed by
`target_classes[idx] = target_classes_o`. -/
def target_classes_code (num_classes : ℕ) (targets : List Target)
    (indices : Indices) : ℕ → ℕ → ℕ :=
  scatterF (fun _ _ => num_classes)
    (((get_src_permutation_idx indices).1.zip (get_src_permutation_idx indices).2).zip
      (target_classes_o targets indices))

/-- Embeds `F.cross_entropy(src_logits.transpose(1, 2), target_classes,
self.empty_weight)` with the default mean reduction: the weighted mean of
the per-slot negative log-softmax terms over all batch x query slots,
weights looked up per slot in the class-weight vector. -/
def loss_ce_scalar (E : ExternalFns) (num_classes : ℕ) (ew : List ℚ)
    (outputs : Outputs) (targets : List Target) (indices : Indices) : ℚ :=
  (∑ b ∈ Finset.range outputs.pred_logits.length,
    ∑ q ∈ Finset.range (outputs.pred_logits.getD 0 []).length,
      ew.getD (target_classes_code num_classes targets indices b q) 0 *
        E.nll ((outputs.pred_logits.getD b []).getD q [])
          (target_classes_code num_classes targets indices b q)) /
  (∑ b ∈ Finset.range outputs.pred_logits.length,
    ∑ q ∈ Finset.range (outputs.pred_logits.getD 0 []).length,
      ew.getD (target_classes_code num_classes targets indices b q) 0)

/-- Embeds `SetCriterion.loss_labels` (the returned dict; `num_boxes` is passed by
the caller but unused, as in the source). -/
def loss_labels (E : ExternalFns) (num_classes : ℕ) (ew : List ℚ)
    (outputs : Outputs) (targets : List Target) (indices : Indices)
    (_nb : ℚ) : List (LKey × ℚ) :=
  [(LKey.ce, loss_ce_scalar E num_classes ew outputs targets indices)]

/-- The (slot, label) overwrite list of one image: matched query index
paired with the corresponding matched target label. -/
def image_slot_updates (t : Target) (p : List ℕ × List ℕ) : List (ℕ × ℕ) :=
  (p.1.zip p.2).map fun sj => (sj.1, t.labels.getD sj.2 0)

/-- Follows the spec's words (claim C3): per image `b`, the dense label row
starts at the no-object index (= `num_classes`) in every slot and the slots
at the matched query indices are overwritten with the matched target
labels. -/
def dense_labels_spec (num_classes : ℕ) (targets : List Target)
    (indices : Indices) (b : ℕ) : ℕ → ℕ :=
  overwrite_slots (fun _ => num_classes)
    (image_slot_updates (targets.getD b ⟨[], []⟩) (indices.getD b ([], [])))

/-- Proof-side view of the flat scatter-update list: one tagged segment per
image, with an explicit starting batch index. -/
def label_segments : ℕ → List Target → Indices → List (List ((ℕ × ℕ) × ℕ))
  | n, t :: ts, p :: ps =>
      ((image_slot_updates t p).map fun su => ((n, su.1), su.2)) ::
        label_segments (n + 1) ts ps
  | _, _, _ => []

theorem updates_eq_label_segments :
    ∀ (ps : Indices) (ts : List Target) (n : ℕ),
    ts.length = ps.length →
    (∀ p ∈ ps, (p.1 : List ℕ).length = p.2.length) →
    ((((List.enumFrom n ps).map fun p => full_like p.2.1 p.1).flatten.zip
        ((ps.map fun p => p.1).flatten)).zip
      (((ts.zip ps).map fun p => p.2.2.map fun j => p.1.labels.getD j 0).flatten))
    = (label_segments n ts ps).flatten := by
  intro ps
  induction ps with
  | nil =>
      intro ts n _ _
      cases ts <;> rfl
  | cons p ps ih =>
      intro ts n hlen hseg
      cases ts with
      | nil => simp at hlen
      | cons t ts =>
          have hlen2 : ts.length = ps.length := by simpa using hlen
          have hp : p.1.length = p.2.length := hseg p (List.mem_cons_self p ps)
          have hseg2 : ∀ x ∈ ps, (x.1 : List ℕ).length = x.2.length :=
            fun x hx => hseg x (List.mem_cons_of_mem p hx)
          show ((((full_like p.1 n :: (List.enumFrom (n + 1) ps).map fun x =>
              full_like x.2.1 x.1).flatten).zip
              ((p.1 :: ps.map fun x => x.1).flatten)).zip
              (((p.2.map fun j => t.labels.getD j 0) ::
                (ts.zip ps).map fun x => x.2.2.map fun j => x.1.labels.getD j 0).flatten))
            = _
          rw [List.flatten_cons, List.flatten_cons, List.flatten_cons,
            List.zip_append (by rw [full_like_eq_replicate]; simp),
            List.zip_append (by simp [full_like_eq_replicate, hp]),
            full_like_zip, List.zip_map]
          rw [ih ts (n + 1) hlen2 hseg2]
          show _ ++ _ = _ ++ _
          congr 1
          unfold image_slot_updates
          rw [List.map_map]
          rfl

theorem scatterF_cons (init : ℕ → ℕ → ℕ) (x : (ℕ × ℕ) × ℕ)
    (upd : List ((ℕ × ℕ) × ℕ)) :
    scatterF init (x :: upd) =
      scatterF (fun b q => if b = x.1.1 ∧ q = x.1.2 then x.2 else init b q) upd :=
  rfl

theorem overwrite_slots_cons (init : ℕ → ℕ) (x : ℕ × ℕ) (upd : List (ℕ × ℕ)) :
    overwrite_slots init (x :: upd) =
      overwrite_slots (fun q => if q = x.1 then x.2 else init q) upd :=
  rfl

theorem scatterF_tagged (u : List (ℕ × ℕ)) :
    ∀ (f : ℕ → ℕ → ℕ) (i b q : ℕ),
    scatterF f (u.map fun su => ((i, su.1), su.2)) b q =
      if b = i then overwrite_slots (fun q2 => f i q2) u q else f b q := by
  induction u with
  | nil =>
      intro f i b q
      by_cases h : b = i
      · subst h
        rw [if_pos rfl]
        rfl
      · rw [if_neg h]
        rfl
  | cons su us ih =>
      intro f i b q
      rw [List.map_cons, scatterF_cons, ih, overwrite_slots_cons]
      by_cases h : b = i
      · subst h
        rw [if_pos rfl, if_pos rfl]
        congr 1
        funext q2
        simp
      · rw [if_neg h, if_neg h, if_neg (by simp [h])]

theorem scatterF_append (init : ℕ → ℕ → ℕ) (u v : List ((ℕ × ℕ) × ℕ)) :
    scatterF init (u ++ v) = scatterF (scatterF init u) v := by
  unfold scatterF
  rw [List.foldl_append]

theorem scatterF_label_segments :
    ∀ (ps : Indices) (ts : List Target) (n : ℕ) (f : ℕ → ℕ → ℕ) (b q : ℕ),
    ts.length = ps.length →
    scatterF f (label_segments n ts ps).flatten b q =
      if n ≤ b ∧ b < n + ps.length then
        overwrite_slots (fun q2 => f b q2)
          (image_slot_updates (ts.getD (b - n) ⟨[], []⟩)
            (ps.getD (b - n) ([], []))) q
      else f b q := by
  intro ps
  induction ps with
  | nil =>
      intro ts n f b q hlen
      cases ts with
      | nil => rw [if_neg (by simp only [List.length_nil]; omega)]; rfl
      | cons t ts => simp at hlen
  | cons p ps ih =>
      intro ts n f b q hlen
      cases ts with
      | nil => simp at hlen
      | cons t ts =>
          have hlen2 : ts.length = ps.length := by simpa using hlen
          rw [show (label_segments n (t :: ts) (p :: ps)).flatten =
              ((image_slot_updates t p).map fun su => ((n, su.1), su.2)) ++
                (label_segments (n + 1) ts ps).flatten from rfl,
            scatterF_append,
            ih ts (n + 1) _ b q hlen2]
          by_cases hb : b = n
          · subst hb
            rw [if_neg (by omega), scatterF_tagged, if_pos rfl,
              if_pos (show b ≤ b ∧ b < b + (p :: ps).length by
                refine ⟨Nat.le_refl b, ?_⟩
                simp only [List.length_cons]
                omega),
              Nat.sub_self]
            rfl
          · by_cases hin : n + 1 ≤ b ∧ b < n + 1 + ps.length
            · rw [if_pos hin,
                if_pos (show n ≤ b ∧ b < n + (p :: ps).length by
                  simp only [List.length_cons]
                  omega)]
              have hsub : b - n = (b - (n + 1)) + 1 := by omega
              rw [hsub, List.getD_cons_succ, List.getD_cons_succ]
              congr 1
              funext q2
              rw [scatterF_tagged, if_neg hb]
            · rw [if_neg hin, scatterF_tagged, if_neg hb,
                if_neg (show ¬(n ≤ b ∧ b < n + (p :: ps).length) by
                  simp only [List.length_cons]
                  omega)]

/-- The dense label tensor built by `loss_labels` agrees everywhere with the
per-image description of the spec. -/
theorem target_classes_eq_spec (num_classes : ℕ) (targets : List Target)
    (indices : Indices)
    (hlen : targets.length = indices.length)
    (hseg : ∀ p ∈ indices, (p.1 : List ℕ).length = p.2.length)
    (b q : ℕ) :
    target_classes_code num_classes targets indices b q =
      dense_labels_spec num_classes targets indices b q := by
  unfold target_classes_code target_classes_o dense_labels_spec
    get_src_permutation_idx
  rw [List.enum_eq_enumFrom,
    updates_eq_label_segments indices targets 0 hlen hseg,
    scatterF_label_segments indices targets 0 (fun _ _ => num_classes) b q hlen]
  by_cases hb : b < indices.length
  · rw [if_pos (by omega)]
    rfl
  · rw [if_neg (by omega)]
    have h1 : indices.getD b ([], []) = ([], []) :=
      List.getD_eq_default _ _ (by omega)
    rw [h1]
    rfl

theorem empty_weight_getD (nc : ℕ) (eos : ℚ) (c : ℕ) (hc : c ≤ nc) :
    (empty_weight nc eos).getD c 0 = if c = nc then eos else 1 := by
  unfold empty_weight
  rw [List.getD_eq_getElem?_getD, List.getElem?_set]
  by_cases h : c = nc
  · rw [if_pos (h.symm), if_pos (by simp), if_pos h]
    rfl
  · rw [if_neg (fun he => h he.symm), List.getElem?_replicate,
      if_pos (by omega), if_neg h]
    rfl

theorem overwrite_slots_prop (P : ℕ → Prop) :
    ∀ (upd : List (ℕ × ℕ)) (init : ℕ → ℕ) (q : ℕ),
    (∀ q2, P (init q2)) → (∀ su ∈ upd, P su.2) →
    P (overwrite_slots init upd q) := by
  intro upd
  induction upd with
  | nil =>
      intro init q hinit _
      exact hinit q
  | cons su us ih =>
      intro init q hinit hupd
      rw [overwrite_slots_cons]
      apply ih
      · intro q2
        by_cases h : q2 = su.1
        · rw [if_pos h]
          exact hupd su (List.mem_cons_self su us)
        · rw [if_neg h]
          exact hinit q2
      · exact fun x hx => hupd x (List.mem_cons_of_mem su hx)

theorem getD_mem_of_lt {α : Type} (l : List α) (n : ℕ) (d : α)
    (h : n < l.length) : l.getD n d ∈ l := by
  rw [List.getD_eq_getElem?_getD, List.getElem?_eq_getElem h]
  exact List.getElem_mem h

theorem dense_labels_le (nc : ℕ) (targets : List Target) (indices : Indices)
    (hlab : ∀ t ∈ targets, ∀ c ∈ t.labels, c < nc) (b q : ℕ) :
    dense_labels_spec nc targets indices b q ≤ nc := by
  unfold dense_labels_spec
  apply overwrite_slots_prop (fun v => v ≤ nc)
  · intro _
    exact Nat.le_refl nc
  · intro su hsu
    rcases List.mem_map.mp hsu with ⟨sj, _, heq⟩
    have hval : su.2 = (targets.getD b ⟨[], []⟩).labels.getD sj.2 0 := by
      rw [← heq]
    rw [hval]
    by_cases hb : b < targets.length
    · have ht : targets.getD b ⟨[], []⟩ ∈ targets := getD_mem_of_lt targets b _ hb
      by_cases hj : sj.2 < (targets.getD b ⟨[], []⟩).labels.length
      · have := hlab _ ht _ (getD_mem_of_lt _ sj.2 0 hj)
        omega
      · rw [List.getD_eq_default _ _ (by omega)]
        omega
    · have hd : targets.getD b ⟨[], []⟩ = (⟨[], []⟩ : Target) :=
        List.getD_eq_default _ _ (by omega)
      rw [hd]
      simp

/-- Claim C3: `loss_labels` builds the dense [B, Q] label tensor that is the
no-object index (= `num_classes`) everywhere except, per image, at the
matched query indices where it holds the matched target labels, and returns
`loss_ce` as the single scalar weighted mean cross-entropy over all
batch x query slots, with per-class weight 1 for every real class and
`eos_coef` for the no-object class. -/
theorem claim_C3 (E : ExternalFns) (num_classes : ℕ) (eos_coef : ℚ)
    (outputs : Outputs) (targets : List Target) (indices : Indices) (nb : ℚ)
    (hlen : targets.length = indices.length)
    (hseg : ∀ p ∈ indices, (p.1 : List ℕ).length = p.2.length)
    (hlab : ∀ t ∈ targets, ∀ c ∈ t.labels, c < num_classes) :
    loss_labels E num_classes (empty_weight num_classes eos_coef) outputs
        targets indices nb =
      [(LKey.ce,
        (∑ b ∈ Finset.range outputs.pred_logits.length,
          ∑ q ∈ Finset.range (outputs.pred_logits.getD 0 []).length,
            (if dense_labels_spec num_classes targets indices b q = num_classes
              then eos_coef else 1) *
              E.nll ((outputs.pred_logits.getD b []).getD q [])
                (dense_labels_spec num_classes targets indices b q)) /
        (∑ b ∈ Finset.range outputs.pred_logits.length,
          ∑ q ∈ Finset.range (outputs.pred_logits.getD 0 []).length,
            (if dense_labels_spec num_classes targets indices b q = num_classes
              then eos_coef else 1)))] := by
  unfold loss_labels loss_ce_scalar
  have hpt : ∀ b q,
      (empty_weight num_classes eos_coef).getD
        (target_classes_code num_classes targets indices b q) 0 =
      (if dense_labels_spec num_classes targets indices b q = num_classes
        then eos_coef else 1) := by
    intro b q
    rw [target_classes_eq_spec num_classes targets indices hlen hseg b q,
      empty_weight_getD num_classes eos_coef _
        (dense_labels_le num_classes targets indices hlab b q)]
  have hnum :
      (∑ b ∈ Finset.range outputs.pred_logits.length,
        ∑ q ∈ Finset.range (outputs.pred_logits.getD 0 []).length,
          (empty_weight num_classes eos_coef).getD
            (target_classes_code num_classes targets indices b q) 0 *
            E.nll ((outputs.pred_logits.getD b []).getD q [])
              (target_classes_code num_classes targets indices b q)) =
      (∑ b ∈ Finset.range outputs.pred_logits.length,
        ∑ q ∈ Finset.range (outputs.pred_logits.getD 0 []).length,
          (if dense_labels_spec num_classes targets indices b q = num_classes
            then eos_coef else 1) *
            E.nll ((outputs.pred_logits.getD b []).getD q [])
              (dense_labels_spec num_classes targets indices b q)) := by
    apply Finset.sum_congr rfl
    intro b _
    apply Finset.sum_congr rfl
    intro q _
    rw [hpt b q, target_classes_eq_spec num_classes targets indices hlen hseg b q]
  have hden :
      (∑ b ∈ Finset.range outputs.pred_logits.length,
        ∑ q ∈ Finset.range (outputs.pred_logits.getD 0 []).length,
          (empty_weight num_classes eos_coef).getD
            (target_classes_code num_classes targets indices b q) 0) =
      (∑ b ∈ Finset.range outputs.pred_logits.length,
        ∑ q ∈ Finset.range (outputs.pred_logits.getD 0 []).length,
          (if dense_labels_spec num_classes targets indices b q = num_classes
            then eos_coef else 1)) := by
    apply Finset.sum_congr rfl
    intro b _
    apply Finset.sum_congr rfl
    intro q _
    rw [hpt b q]
  rw [hnum, hden]

/-- Concrete instantiations shared by the loss-module witnesses. -/
def witnessE : ExternalFns := ⟨id, fun _ _ => 0, fun l c => l.getD c 0⟩

def witnessOutputs : Outputs := ⟨[[[1, 2, 3], [4, 5, 6]]], [[box0, box0]]⟩

def witnessTargets : List Target := [⟨[1], [box0]⟩]

def witnessIndices : Indices := [([0], [0])]

/-- Claim C3 witness: one image, two query slots, one matched target of
class 1. -/
theorem claim_C3_witness :
    witnessTargets.length = witnessIndices.length ∧
    (∀ p ∈ witnessIndices, (p.1 : List ℕ).length = p.2.length) ∧
    (∀ t ∈ witnessTargets, ∀ c ∈ t.labels, c < 2) ∧
    loss_labels witnessE 2 (empty_weight 2 (1 / 2)) witnessOutputs
        witnessTargets witnessIndices 5 =
      [(LKey.ce,
        (∑ b ∈ Finset.range witnessOutputs.pred_logits.length,
          ∑ q ∈ Finset.range (witnessOutputs.pred_logits.getD 0 []).length,
            (if dense_labels_spec 2 witnessTargets witnessIndices b q = 2
              then (1 / 2 : ℚ) else 1) *
              witnessE.nll ((witnessOutputs.pred_logits.getD b []).getD q [])
                (dense_labels_spec 2 witnessTargets witnessIndices b q)) /
        (∑ b ∈ Finset.range witnessOutputs.pred_logits.length,
          ∑ q ∈ Finset.range (witnessOutputs.pred_logits.getD 0 []).length,
            (if dense_labels_spec 2 witnessTargets witnessIndices b q = 2
              then (1 / 2 : ℚ) else 1)))] :=
  ⟨rfl, by decide, by decide,
   claim_C3 witnessE 2 (1 / 2) witnessOutputs witnessTargets witnessIndices 5
     rfl (by decide) (by decide)⟩

/-! ## SetCriterion.forward and the auxiliary losses -/

/-- The full prediction dict handed to `SetCriterion.forward`;
`aux_outputs = none` models absence of the "aux_outputs" key. -/
structure OutputsFull where
  pred_logits : List (List (List ℚ))
  pred_boxes : List (List Box)
  aux_outputs : Option (List Outputs)

/-- Embeds `outputs_without_aux = {k: v for k, v in outputs.items() if k != "aux_outputs"}`. -/
def OutputsFull.without_aux (o : OutputsFull) : Outputs :=
  ⟨o.pred_logits, o.pred_boxes⟩

/-- Embeds `"loss_xxx" in d` for the loss dictionary. -/
def hasKey (d : List (LKey × ℚ)) (k : LKey) : Bool :=
  d.any fun p => decide (p.1 = k)

/-- One key of a Python dict assignment: overwrite in place when present,
append otherwise. -/
def dictInsert (d : List (LKey × ℚ)) (k : LKey) (v : ℚ) : List (LKey × ℚ) :=
  if hasKey d k then d.map fun p => if p.1 = k then (k, v) else p
  else d ++ [(k, v)]

/-- Embeds `d.update(nw)` with Python dict semantics (insertion order preserved). -/
def dictUpdate (d nw : List (LKey × ℚ)) : List (LKey × ℚ) :=
  nw.foldl (fun acc p => dictInsert acc p.1 p.2) d

/-- The key renaming `{k + f"_{i}": v for k, v in l_dict.items()}`.  Only
the three base keys ever occur in `l_dict`, so the catch-all branch is
unreachable in `forward`. -/
def suffix_key (i : ℕ) : LKey → LKey
  | .ce => .ceA i
  | .bbox => .bboxA i
  | .giou => .giouA i
  | k => k

/-- Whether a key carries the `_k` auxiliary-layer suffix. -/
def is_layer_key (k : ℕ) : LKey → Bool
  | .ceA i => decide (i = k)
  | .bboxA i => decide (i = k)
  | .giouA i => decide (i = k)
  | _ => false

/-- One iteration of the `for i, aux_outputs in enumerate(outputs["aux_outputs"])`
loop of `SetCriterion.forward`: re-match this layer, compute both loss
dicts, suffix the keys with the layer index, and merge into the running
dictionary. -/
def aux_step (E : ExternalFns) (matcher : Outputs → List Target → Indices)
    (num_classes : ℕ) (eos_coef : ℚ) (targets : List Target) (nb : ℚ)
    (acc : List (LKey × ℚ)) (p : ℕ × Outputs) : List (LKey × ℚ) :=
  dictUpdate acc
    ((dictUpdate
        (loss_labels E num_classes (empty_weight num_classes eos_coef) p.2
          targets (matcher p.2 targets) nb)
        (loss_boxes E p.2 targets (matcher p.2 targets) nb)).map
      fun kv => (suffix_key p.1 kv.1, kv.2))

/-- Steps 1-3 of `SetCriterion.forward`: match the final layer, then merge
`loss_labels` and `loss_boxes` into the empty dictionary. -/
def base_losses (E : ExternalFns) (matcher : Outputs → List Target → Indices)
    (num_classes : ℕ) (eos_coef : ℚ) (ow : Outputs) (targets : List Target) :
    List (LKey × ℚ) :=
  dictUpdate
    (dictUpdate []
      (loss_labels E num_classes (empty_weight num_classes eos_coef) ow targets
        (matcher ow targets) ((num_boxes targets : ℕ) : ℚ)))
    (loss_boxes E ow targets (matcher ow targets) ((num_boxes targets : ℕ) : ℚ))

/-- Embeds `SetCriterion.forward`: final-layer losses, then — when "aux_outputs"
is present — one pass of `aux_step` per auxiliary layer, in order, all
sharing the normalizer `num_boxes` computed once from the targets. -/
def SetCriterion.forward (E : ExternalFns)
    (matcher : Outputs → List Target → Indices) (num_classes : ℕ)
    (eos_coef : ℚ) (outputs : OutputsFull) (targets : List Target) :
    List (LKey × ℚ) :=
  match outputs.aux_outputs with
  | none => base_losses E matcher num_classes eos_coef
      (OutputsFull.without_aux outputs) targets
  | some aux =>
      aux.enum.foldl
        (aux_step E matcher num_classes eos_coef targets ((num_boxes targets : ℕ) : ℚ))
        (base_losses E matcher num_classes eos_coef
          (OutputsFull.without_aux outputs) targets)

/-- The final-layer loss triple, written out. -/
def base_terms (E : ExternalFns) (matcher : Outputs → List Target → Indices)
    (num_classes : ℕ) (eos_coef : ℚ) (o : Outputs) (targets : List Target)
    (nb : ℚ) : List (LKey × ℚ) :=
  [(LKey.ce, loss_ce_scalar E num_classes (empty_weight num_classes eos_coef)
      o targets (matcher o targets)),
   (LKey.bbox, loss_bbox_scalar o targets (matcher o targets) nb),
   (LKey.giou, loss_giou_scalar E o targets (matcher o targets) nb)]

/-- The loss triple of auxiliary layer `i`: the matcher is re-run on this
layer's predictions `a` against the same targets, each term keyed by its
name suffixed with the zero-based layer index. -/
def aux_layer_terms (E : ExternalFns) (matcher : Outputs → List Target → Indices)
    (num_classes : ℕ) (eos_coef : ℚ) (targets : List Target) (nb : ℚ)
    (i : ℕ) (a : Outputs) : List (LKey × ℚ) :=
  [(LKey.ceA i, loss_ce_scalar E num_classes (empty_weight num_classes eos_coef)
      a targets (matcher a targets)),
   (LKey.bboxA i, loss_bbox_scalar a targets (matcher a targets) nb),
   (LKey.giouA i, loss_giou_scalar E a targets (matcher a targets) nb)]

theorem hasKey_append (d e : List (LKey × ℚ)) (k : LKey) :
    hasKey (d ++ e) k = (hasKey d k || hasKey e k) := by
  unfold hasKey
  rw [List.any_append]

theorem dictInsert_fresh (d : List (LKey × ℚ)) (k : LKey) (v : ℚ)
    (h : hasKey d k = false) : dictInsert d k v = d ++ [(k, v)] := by
  unfold dictInsert
  simp [h]

theorem dictUpdate_fresh :
    ∀ (nw d : List (LKey × ℚ)),
    (∀ p ∈ nw, hasKey d p.1 = false) →
    List.Pairwise (fun a b => a.1 ≠ b.1) nw →
    dictUpdate d nw = d ++ nw := by
  intro nw
  induction nw with
  | nil =>
      intro d _ _
      show d = d ++ []
      rw [List.append_nil]
  | cons p nw ih =>
      intro d hfresh hpw
      show dictUpdate (dictInsert d p.1 p.2) nw = d ++ p :: nw
      rw [dictInsert_fresh d p.1 p.2 (hfresh p (List.mem_cons_self p nw))]
      rw [ih (d ++ [(p.1, p.2)]) ?_ (List.pairwise_cons.mp hpw).2]
      · rw [List.append_assoc]
        rfl
      · intro x hx
        rw [hasKey_append, hfresh x (List.mem_cons_of_mem p hx)]
        have hne : p.1 ≠ x.1 := (List.pairwise_cons.mp hpw).1 x hx
        simp [hasKey, hne]

theorem base_losses_eq (E : ExternalFns)
    (matcher : Outputs → List Target → Indices) (num_classes : ℕ)
    (eos_coef : ℚ) (ow : Outputs) (targets : List Target) :
    base_losses E matcher num_classes eos_coef ow targets =
      base_terms E matcher num_classes eos_coef ow targets
        ((num_boxes targets : ℕ) : ℚ) :=
  rfl

theorem aux_step_eq (E : ExternalFns)
    (matcher : Outputs → List Target → Indices) (num_classes : ℕ)
    (eos_coef : ℚ) (targets : List Target) (nb : ℚ)
    (acc : List (LKey × ℚ)) (n : ℕ) (a : Outputs)
    (h1 : hasKey acc (LKey.ceA n) = false)
    (h2 : hasKey acc (LKey.bboxA n) = false)
    (h3 : hasKey acc (LKey.giouA n) = false) :
    aux_step E matcher num_classes eos_coef targets nb acc (n, a) =
      acc ++ aux_layer_terms E matcher num_classes eos_coef targets nb n a := by
  have hrw : aux_step E matcher num_classes eos_coef targets nb acc (n, a) =
      dictUpdate acc (aux_layer_terms E matcher num_classes eos_coef targets nb n a) :=
    rfl
  rw [hrw]
  apply dictUpdate_fresh
  · intro p hp
    rcases List.mem_cons.mp hp with rfl | hp
    · exact h1
    rcases List.mem_cons.mp hp with rfl | hp
    · exact h2
    rcases List.mem_cons.mp hp with rfl | hp
    · exact h3
    · exact absurd hp (List.not_mem_nil p)
  · simp [aux_layer_terms, List.pairwise_cons]

theorem aux_fold_eq (E : ExternalFns)
    (matcher : Outputs → List Target → Indices) (num_classes : ℕ)
    (eos_coef : ℚ) (targets : List Target) (nb : ℚ) :
    ∀ (l : List Outputs) (n : ℕ) (acc : List (LKey × ℚ)),
    (∀ j, n ≤ j → hasKey acc (LKey.ceA j) = false ∧
      hasKey acc (LKey.bboxA j) = false ∧ hasKey acc (LKey.giouA j) = false) →
    (List.enumFrom n l).foldl
        (aux_step E matcher num_classes eos_coef targets nb) acc =
      acc ++ ((List.enumFrom n l).map fun p =>
        aux_layer_terms E matcher num_classes eos_coef targets nb p.1 p.2).flatten := by
  intro l
  induction l with
  | nil =>
      intro n acc _
      show acc = acc ++ []
      rw [List.append_nil]
  | cons a l ih =>
      intro n acc hacc
      rw [List.enumFrom_cons]
      show List.foldl _
        (aux_step E matcher num_classes eos_coef targets nb acc (n, a)) _ = _
      rw [aux_step_eq E matcher num_classes eos_coef targets nb acc n a
        (hacc n (Nat.le_refl n)).1 (hacc n (Nat.le_refl n)).2.1
        (hacc n (Nat.le_refl n)).2.2]
      rw [ih (n + 1)
        (acc ++ aux_layer_terms E matcher num_classes eos_coef targets nb n a) ?_]
      · rw [List.map_cons, List.flatten_cons, List.append_assoc]
      · intro j hj
        have hne : n ≠ j := by omega
        have h0 := hacc j (by omega)
        refine ⟨?_, ?_, ?_⟩
        · rw [hasKey_append, h0.1, Bool.false_or]
          simp [hasKey, aux_layer_terms, hne]
        · rw [hasKey_append, h0.2.1, Bool.false_or]
          simp [hasKey, aux_layer_terms, hne]
        · rw [hasKey_append, h0.2.2, Bool.false_or]
          simp [hasKey, aux_layer_terms, hne]

theorem forward_decomp (E : ExternalFns)
    (matcher : Outputs → List Target → Indices) (num_classes : ℕ)
    (eos_coef : ℚ) (o : OutputsFull) (targets : List Target)
    (aux : List Outputs) (ha : o.aux_outputs = some aux) :
    SetCriterion.forward E matcher num_classes eos_coef o targets =
      base_terms E matcher num_classes eos_coef (OutputsFull.without_aux o)
        targets ((num_boxes targets : ℕ) : ℚ) ++
      (aux.enum.map fun p => aux_layer_terms E matcher num_classes eos_coef
        targets ((num_boxes targets : ℕ) : ℚ) p.1 p.2).flatten := by
  unfold SetCriterion.forward
  rw [ha]
  rw [base_losses_eq]
  rw [List.enum_eq_enumFrom]
  apply aux_fold_eq
  intro j _
  refine ⟨rfl, rfl, rfl⟩

theorem filtered_aux_congr (E : ExternalFns)
    (matcher : Outputs → List Target → Indices) (num_classes : ℕ)
    (eos_coef : ℚ) (targets : List Target) (nb : ℚ) (k : ℕ) :
    ∀ (l l2 : List Outputs) (n : ℕ), l.length = l2.length →
    (∀ m, n + m ≠ k → l[m]? = l2[m]?) →
    (((List.enumFrom n l).map fun p =>
      aux_layer_terms E matcher num_classes eos_coef targets nb p.1 p.2).flatten.filter
        (fun kv => !is_layer_key k kv.1)) =
    (((List.enumFrom n l2).map fun p =>
      aux_layer_terms E matcher num_classes eos_coef targets nb p.1 p.2).flatten.filter
        (fun kv => !is_layer_key k kv.1)) := by
  intro l
  induction l with
  | nil =>
      intro l2 n hlen _
      cases l2 with
      | nil => rfl
      | cons a2 l2 => simp at hlen
  | cons a l ih =>
      intro l2 n hlen hag
      cases l2 with
      | nil => simp at hlen
      | cons a2 l2 =>
          rw [List.enumFrom_cons, List.enumFrom_cons, List.map_cons, List.map_cons,
            List.flatten_cons, List.flatten_cons, List.filter_append,
            List.filter_append]
          rw [ih l2 (n + 1) (by simpa using hlen) (fun m hm => by
            have := hag (m + 1) (by omega)
            simpa using this)]
          congr 1
          by_cases hn : n = k
          · subst hn
            simp [aux_layer_terms, is_layer_key, List.filter]
          · have h0 := hag 0 (by omega)
            simp only [List.getElem?_cons_zero, Option.some.injEq] at h0
            rw [h0]

/-- Claim C4: with `aux_outputs` present, `forward` equals the final-layer
triple followed, per auxiliary layer `k` in order, by the `_k`-suffixed
triple computed by re-running the matcher on that layer's predictions
against the same targets with the shared `num_boxes` normalizer computed
once from the targets; and changing only `aux_outputs[k]` leaves every
entry other than the `_k`-suffixed ones unchanged. -/
theorem claim_C4 (E : ExternalFns)
    (matcher : Outputs → List Target → Indices) (num_classes : ℕ)
    (eos_coef : ℚ) (o o2 : OutputsFull) (targets : List Target)
    (aux aux2 : List Outputs) (k : ℕ)
    (ha : o.aux_outputs = some aux) (ha2 : o2.aux_outputs = some aux2)
    (hlog : o.pred_logits = o2.pred_logits)
    (hbox : o.pred_boxes = o2.pred_boxes)
    (hlenA : aux.length = aux2.length)
    (hagree : ∀ j, j ≠ k → aux[j]? = aux2[j]?) :
    SetCriterion.forward E matcher num_classes eos_coef o targets =
      base_terms E matcher num_classes eos_coef (OutputsFull.without_aux o)
        targets ((num_boxes targets : ℕ) : ℚ) ++
      (aux.enum.map fun p => aux_layer_terms E matcher num_classes eos_coef
        targets ((num_boxes targets : ℕ) : ℚ) p.1 p.2).flatten ∧
    (SetCriterion.forward E matcher num_classes eos_coef o targets).filter
        (fun kv => !is_layer_key k kv.1) =
      (SetCriterion.forward E matcher num_classes eos_coef o2 targets).filter
        (fun kv => !is_layer_key k kv.1) := by
  have hw : OutputsFull.without_aux o = OutputsFull.without_aux o2 := by
    unfold OutputsFull.without_aux
    rw [hlog, hbox]
  constructor
  · exact forward_decomp E matcher num_classes eos_coef o targets aux ha
  · rw [forward_decomp E matcher num_classes eos_coef o targets aux ha,
      forward_decomp E matcher num_classes eos_coef o2 targets aux2 ha2, hw,
      List.filter_append, List.filter_append]
    congr 1
    rw [List.enum_eq_enumFrom, List.enum_eq_enumFrom]
    exact filtered_aux_congr E matcher num_classes eos_coef targets
      ((num_boxes targets : ℕ) : ℚ) k aux aux2 0 hlenA
      (fun m hm => hagree m (by omega))

/-- Auxiliary-layer predictions used by the claim C4 witness. -/
def witnessAux0 : Outputs := ⟨[[[1, 0, 0], [0, 0, 0]]], [[box0, box0]]⟩

def witnessAux1 : Outputs := ⟨[[[0, 1, 0], [0, 0, 0]]], [[⟨1, 1, 1, 1⟩, box0]]⟩

def witnessAux0x : Outputs := ⟨[[[9, 9, 9], [9, 9, 9]]], [[⟨2, 2, 2, 2⟩, box0]]⟩

def witnessMatcher : Outputs → List Target → Indices := fun _ _ => [([0], [0])]

def witnessFull : OutputsFull :=
  ⟨[[[1, 2, 3], [4, 5, 6]]], [[box0, box0]], some [witnessAux0, witnessAux1]⟩

def witnessFull2 : OutputsFull :=
  ⟨[[[1, 2, 3], [4, 5, 6]]], [[box0, box0]], some [witnessAux0x, witnessAux1]⟩

/-- Claim C4 witness: two auxiliary layers; perturbing only layer 0 leaves
everything except the `_0`-suffixed entries unchanged. -/
theorem claim_C4_witness :
    (SetCriterion.forward witnessE witnessMatcher 2 (1 / 2) witnessFull
        witnessTargets =
      base_terms witnessE witnessMatcher 2 (1 / 2)
        (OutputsFull.without_aux witnessFull) witnessTargets
        ((num_boxes witnessTargets : ℕ) : ℚ) ++
      (([witnessAux0, witnessAux1] : List Outputs).enum.map fun p =>
        aux_layer_terms witnessE witnessMatcher 2 (1 / 2) witnessTargets
          ((num_boxes witnessTargets : ℕ) : ℚ) p.1 p.2).flatten) ∧
    (SetCriterion.forward witnessE witnessMatcher 2 (1 / 2) witnessFull
        witnessTargets).filter (fun kv => !is_layer_key 0 kv.1) =
      (SetCriterion.forward witnessE witnessMatcher 2 (1 / 2) witnessFull2
        witnessTargets).filter (fun kv => !is_layer_key 0 kv.1) :=
  claim_C4 witnessE witnessMatcher 2 (1 / 2) witnessFull witnessFull2
    witnessTargets [witnessAux0, witnessAux1] [witnessAux0x, witnessAux1] 0
    rfl rfl rfl rfl rfl
    (fun j hj => by
      match j with
      | 0 => exact absurd rfl hj
      | 1 => rfl
      | n + 2 => rfl)

end DETR
